import Mathlib

/-!
Verification development for the growl static-site generator (growl.py).

The Python source is shallowly embedded: document text is a list of
characters, a Python dict is an association list with first-match lookup,
fallible constructors return Except, and the external collaborators
(jinja2 template rendering, the per-extension content transformers, the
YAML decoder) are parameters of the embedded functions.  All embedded
definitions are executable.
-/

set_option autoImplicit false

abbrev Str := List Char

/-- Character class of Python's regex token \s and of str.strip for byte
strings: space, tab, newline, carriage return, vertical tab, form feed. -/
def isPySpace (c : Char) : Bool :=
  c == ' ' || c == '\t' || c == '\n' || c == '\r' || c == '\x0b' || c == '\x0c'

/-- Drop trailing characters satisfying p (helper for str.strip). -/
def stripRight (p : Char → Bool) : Str → Str
  | [] => []
  | c :: t =>
    let r := stripRight p t
    if r = [] then (if p c then [] else [c]) else c :: r

/-- Python str.strip(): remove leading and trailing whitespace. -/
def pyStrip (l : Str) : Str := stripRight isPySpace (l.dropWhile isPySpace)

/-- Split at the first occurrence of sep, if any (helper for str.split). -/
def splitFirst (sep : Char) : Str → Option (Str × Str)
  | [] => none
  | c :: t =>
    if c = sep then some ([], t)
    else (splitFirst sep t).map (fun ab => (c :: ab.1, ab.2))

/-- Python str.split(sep, maxsplit): split on sep at most n times. -/
def pySplitMax (sep : Char) : Nat → Str → List Str
  | 0, l => [l]
  | n + 1, l =>
    match splitFirst sep l with
    | none => [l]
    | some ab => ab.1 :: pySplitMax sep n ab.2

/-- Python str.split(sep) without maxsplit is List.splitOn: split on
every occurrence, keeping empty fields; the empty string yields a single
empty field. -/
def pySplitAll (sep : Char) (l : Str) : List Str := l.splitOn sep

/-- Numeric value of a nonempty all-digit string. -/
def digitsVal (l : Str) : Option Nat :=
  if l ≠ [] ∧ l.all Char.isDigit then
    some (l.foldl (fun a c => a * 10 + (c.toNat - 48)) 0)
  else none

/-- Python 2 int(str): strip whitespace, optional sign, then decimal
digits; anything else raises ValueError (modelled as none). -/
def pyInt (l : Str) : Option Int :=
  match pyStrip l with
  | '-' :: ds => (digitsVal ds).map (fun n => -(n : Int))
  | '+' :: ds => (digitsVal ds).map (fun n => (n : Int))
  | ds => (digitsVal ds).map (fun n => (n : Int))

/-- Index of the last occurrence of a character, if any. -/
def lastIdxOf (ch : Char) (l : Str) : Option Nat :=
  (List.range l.length).foldl
    (fun acc i => if l.getD i ' ' = ch then some i else acc) none

/-- Last path component, as posixpath.basename: everything after the
final '/'. -/
def pyBasename (l : Str) : Str := ((l.reverse.takeWhile (fun c => ¬(c = '/'))).reverse)

/-- Stem part of posixpath.splitext applied to a basename: cut at the
last dot, except when every character before that dot is itself a dot
(hidden files such as .bashrc keep their full name). -/
def splitextStem (l : Str) : Str :=
  match lastIdxOf '.' l with
  | none => l
  | some d => if (l.take d).any (fun c => ¬(c = '.')) then l.take d else l

/-- Extension of a full path without its dot, as computed by
os.path.splitext(filename)[-1][1:]: the part after the last dot, provided
that dot lies after the last '/' and the segment between them is not all
dots. -/
def extOf (l : Str) : Str :=
  match lastIdxOf '.' l with
  | none => []
  | some d =>
    let s := match lastIdxOf '/' l with | none => 0 | some i => i + 1
    if s ≤ d ∧ ((l.drop s).take (d - s)).any (fun c => ¬(c = '.')) then
      l.drop (d + 1)
    else []

/-- Two-argument posixpath.join: an absolute second component replaces
the first; otherwise a '/' separator is inserted unless the first
component is empty or already ends in '/'. -/
def posixJoin (a b : Str) : Str :=
  if b.head? = some '/' then b
  else if a = [] ∨ a.getLast? = some '/' then a ++ b
  else a ++ '/' :: b


/-- Metadata keys used by the pipeline. -/
def kLayout : Str := "layout".data

/-- Key of the rendered body stored into a context. -/
def kContent : Str := "content".data

/-- Key of a post's derived date. -/
def kDate : Str := "date".data

/-- Key of a post's derived url. -/
def kUrl : Str := "url".data

/-- Key of a post's derived path. -/
def kPath : Str := "path".data

/-- Key of the singular category metadata field. -/
def kCategory : Str := "category".data

/-- Key of the plural categories metadata field. -/
def kCategories : Str := "categories".data

/-- Final component of a post's write target. -/
def kIndexHtml : Str := "index.html".data

/-- Dynamically typed metadata values.  The model covers the value
shapes the build manipulates: strings, integers (standing in for any
non-string scalar), the datetime produced for a post, and the list of
category strings a post stores back into its context. -/
inductive Value where
  | str (s : Str)
  | vint (n : Int)
  | date (y m d : Int)
  | strList (l : List Str)
deriving DecidableEq

/-- Python exception outcomes relevant to the build. -/
inductive PyErr where
  | keyError
  | typeError
  | valueError
deriving DecidableEq

/-- First-match lookup in an association list, as Python dict lookup
(dict keys are unique in any state reachable from the source, so
first-match agrees with dict semantics). -/
def Dict.find {β : Type} : List (Str × β) → Str → Option β
  | [], _ => none
  | p :: t, k => if p.1 = k then some p.2 else Dict.find t k

/-- Dict assignment d[k] = v: overwrite the binding in place if the key
is present, else append it. -/
def Dict.set {β : Type} : List (Str × β) → Str → β → List (Str × β)
  | [], k, v => [(k, v)]
  | p :: t, k, v => if p.1 = k then (k, v) :: t else p :: Dict.set t k v

/-- Dict deletion del d[k]: remove the key's bindings. -/
def Dict.del {β : Type} : List (Str × β) → Str → List (Str × β)
  | [], _ => []
  | p :: t, k => if p.1 = k then Dict.del t k else p :: Dict.del t k

deriving instance DecidableEq for Except

/-- Context of a document: the AttrDict of merged metadata. -/
abbrev Ctx := List (Str × Value)

/-- Dict get with default. -/
def Ctx.getD (c : Ctx) (k : Str) (v : Value) : Value := (Dict.find c k).getD v

/-- Dict.update(mapping): set every pair in order. -/
def Ctx.update (c : Ctx) (kvs : List (Str × Value)) : Ctx :=
  kvs.foldl (fun a p => Dict.set a p.1 p.2) c

theorem Dict.find_set_self {β : Type} (l : List (Str × β)) (k : Str) (v : β) :
    Dict.find (Dict.set l k v) k = some v := by
  induction l with
  | nil => simp [Dict.find, Dict.set]
  | cons p t ih =>
    by_cases h : p.1 = k
    · simp [Dict.find, Dict.set, h]
    · simp [Dict.find, Dict.set, h, ih]

theorem Dict.find_set_ne {β : Type} (l : List (Str × β)) (k k' : Str) (v : β)
    (h : k' ≠ k) : Dict.find (Dict.set l k v) k' = Dict.find l k' := by
  have h' : ¬ (k = k') := fun e => h e.symm
  induction l with
  | nil => simp [Dict.find, Dict.set, h']
  | cons p t ih =>
    by_cases hp : p.1 = k
    · have hp' : ¬ (p.1 = k') := by rw [hp]; exact h'
      simp [Dict.find, Dict.set, hp, hp', h']
    · by_cases hp' : p.1 = k'
      · simp [Dict.find, Dict.set, hp, hp', h, h']
      · simp [Dict.find, Dict.set, hp, hp', ih]

theorem Dict.find_del_self {β : Type} (l : List (Str × β)) (k : Str) :
    Dict.find (Dict.del l k) k = none := by
  induction l with
  | nil => simp [Dict.find, Dict.del]
  | cons p t ih =>
    by_cases h : p.1 = k
    · simp [Dict.del, h, ih]
    · simp [Dict.find, Dict.del, h, ih]

theorem Dict.find_del_ne {β : Type} (l : List (Str × β)) (k k' : Str)
    (h : k' ≠ k) : Dict.find (Dict.del l k) k' = Dict.find l k' := by
  induction l with
  | nil => simp [Dict.del]
  | cons p t ih =>
    have h' : ¬ (k = k') := fun e => h e.symm
    by_cases hp : p.1 = k
    · have hp' : ¬ (p.1 = k') := by rw [hp]; exact h'
      simp [Dict.del, Dict.find, hp, hp', h', ih]
    · by_cases hp' : p.1 = k'
      · simp [Dict.del, Dict.find, hp, hp', h, h']
      · simp [Dict.del, Dict.find, hp, hp', ih]

theorem Dict.find_mem {β : Type} {l : List (Str × β)} {k : Str} {b : β}
    (h : Dict.find l k = some b) : (k, b) ∈ l := by
  induction l with
  | nil => simp [Dict.find] at h
  | cons p t ih =>
    by_cases hp : p.1 = k
    · simp [Dict.find, hp] at h
      have : p = (k, b) := by
        cases p
        simp at hp h
        simp [hp, h]
      rw [this]
      exact List.mem_cons_self _ _
    · simp [Dict.find, hp] at h
      exact List.mem_cons_of_mem _ (ih h)

/-!
Metadata-block parser: the regex
  (^---\s*$(?P<yaml>.*?)^---\s*$)?(?P<content>.*)
compiled with MULTILINE and DOTALL and matched at position 0.  The model
reproduces the engine's backtracking order: the first marker's \s* is
greedy (longest first), the yaml group is lazy (shortest first), and the
second marker's \s* is greedy; the whole leading group is optional.
-/

/-- Length of the maximal whitespace run starting at position i. -/
def wsRun (s : Str) (i : Nat) : Nat := ((s.drop i).takeWhile isPySpace).length

/-- $ in MULTILINE: end of string or just before a newline. -/
def dollarAt (s : Str) (i : Nat) : Bool := i == s.length || (s.drop i).head? == some '\n'

/-- Caret in MULTILINE: start of string or just after a newline. -/
def caretAt (s : Str) (i : Nat) : Bool := i == 0 || (s.take i).getLast? == some '\n'

/-- Literal --- at position i. -/
def dashesAt (s : Str) (i : Nat) : Bool := (s.drop i).take 3 == ['-', '-', '-']

/-- Greedy match of \s*$ starting at i: the largest whitespace run length
j whose end satisfies $; returns the end position i+j. -/
def wsDollarEnd (s : Str) (i : Nat) : Option Nat :=
  ((List.range (wsRun s i + 1)).reverse.find? (fun j => dollarAt s (i + j))).map
    (fun j => i + j)

/-- Match of ^---\s*$ at position q; returns the end position after the
greedy \s*. -/
def marker2At (s : Str) (q : Nat) : Option Nat :=
  if caretAt s q && dashesAt s q then wsDollarEnd s (q + 3) else none

/-- Lazy scan for the closing marker: the least q at or after p where
^---\s*$ matches; returns q and the match end. -/
def findMarker2 (s : Str) (p : Nat) : Option (Nat × Nat) :=
  (List.range (s.length + 1)).findSome?
    (fun q => if p ≤ q then (marker2At s q).map (fun e => (q, e)) else none)

/-- Full match of the optional leading group at position 0: when the
group participates, returns the yaml capture and the content capture;
when it cannot match, none (the content group is then the whole text). -/
def reYamlMatch (s : Str) : Option (Str × Str) :=
  if dashesAt s 0 then
    (List.range (wsRun s 3 + 1)).reverse.findSome? (fun k =>
      if dollarAt s (3 + k) then
        (findMarker2 s (3 + k)).map
          (fun qe => ((s.drop (3 + k)).take (qe.1 - (3 + k)), s.drop qe.2))
      else none)
  else none

/-- Result of the external YAML decoder on the captured block text:
either the empty document (Python None) or a mapping.  PyYAML returns
None for a stream holding only whitespace and comments. -/
inductive PyObj where
  | pnone
  | pdict (kvs : List (Str × Value))

/-- Template.read_yaml: match the front-matter regex against the raw
text; when the match object's yaml group is truthy (participating and
nonempty), decode it and merge the result into the context via
dict.update, replacing the content with the content group; dict.update
of the empty document None raises TypeError. -/
def read_yaml (load : Str → PyObj) (ctx : Ctx) (text : Str) : Except PyErr (Ctx × Str) :=
  match reYamlMatch text with
  | none => .ok (ctx, text)
  | some yc =>
    if yc.1 = [] then .ok (ctx, text)
    else
      match load yc.1 with
      | .pnone => .error .typeError
      | .pdict kvs => .ok (Ctx.update ctx kvs, yc.2)

/-- State of a Template (a document after construction): source
filename, content body after front-matter extraction, and the merged
context. -/
structure TemplateS where
  filename : Str
  content : Str
  context : Ctx
deriving DecidableEq

/-- State of a Layout: the file-stem name, the eagerly transformed
content, and its context (whose optional layout key names its parent). -/
structure LayoutS where
  name : Str
  content : Str
  context : Ctx
deriving DecidableEq

/-- Mapping of layout name to Layout held by the Site. -/
abbrev Layouts := List (Str × LayoutS)

/-- Per-extension content transformers (Config.transformers), registered
externally by hook scripts. -/
abbrev Transformers := List (Str × (Str → Str))

/-- Template.transform: look up a transformer for the filename's
extension, defaulting to the identity, and apply it to the content. -/
def Template.transform (transformers : Transformers) (t : TemplateS) : Str :=
  match Dict.find transformers (extOf t.filename) with
  | some f => f t.content
  | none => t.content

/-- Dict lookup self.layouts.get(v) keyed by a dynamically typed value:
a string value names a layout (or misses); None and the hashable
non-string scalars (numbers, datetimes) are simply absent keys; an
unhashable list value makes dict.get raise TypeError. -/
def layoutsGet (layouts : Layouts) : Option Value → Except PyErr (Option LayoutS)
  | some (.str s) => .ok (Dict.find layouts s)
  | some (.strList _) => .error .typeError
  | _ => .ok none

/-- Layout.layout property: the layout's own declared parent name,
self.context.get('layout'). -/
def Layout.parent (l : LayoutS) : Option Value := Dict.find l.context kLayout

/-- Template.render: copy the context, set content to the rendered
transformed body, then look up ctx.layout (attribute access raises
KeyError when the key is missing, and the dict lookup raises TypeError
on an unhashable value); if a layout with that name exists, render its
content against the context, else return the content. -/
def Template.render (renderT : Str → Ctx → Str) (transformers : Transformers)
    (layouts : Layouts) (t : TemplateS) : Except PyErr Str :=
  let c := renderT (Template.transform transformers t) t.context
  let ctx := Dict.set t.context kContent (.str c)
  match Dict.find ctx kLayout with
  | none => .error .keyError
  | some v =>
    match layoutsGet layouts (some v) with
    | .error e => .error e
    | .ok (some l) => .ok (renderT l.content ctx)
    | .ok none => .ok c

/-- One parent step of the chain walk: self.layouts.get(layout.layout),
fallible like every dict lookup on a dynamic key. -/
def nextLayout (layouts : Layouts) (l : LayoutS) : Except PyErr (Option LayoutS) :=
  layoutsGet layouts (Layout.parent l)

/-- The while loop of Template.layout, indexed by fuel; the outer none
means the loop has not finished within the given fuel (the source has
no cycle guard, so the loop need not terminate), and an inner error is
an exception raised by the parent lookup inside the loop body. -/
def chainLoop (renderT : Str → Ctx → Str) (layouts : Layouts) :
    Nat → Ctx → Option LayoutS → Option (Except PyErr Ctx)
  | _, ctx, none => some (.ok ctx)
  | 0, _, some _ => none
  | n + 1, ctx, some l =>
      let ctx' := Dict.set ctx kContent (.str (renderT l.content ctx))
      match nextLayout layouts l with
      | .error e => some (.error e)
      | .ok nxt => chainLoop renderT layouts n ctx' nxt

/-- Outcome of the full chain walk: an exception, a rendered string, or
divergence (fuel exhausted at every fuel). -/
inductive RunRes where
  | diverged
  | err (e : PyErr)
  | ok (s : Str)
deriving DecidableEq

/-- Template.layout: render once, store the result as ctx.content, skip
from the directly applied layout to its declared parent, then repeatedly
re-render against each ancestor until the lookup misses; any exception
from a lookup propagates. -/
def Template.layout (renderT : Str → Ctx → Str) (transformers : Transformers)
    (layouts : Layouts) (t : TemplateS) (fuel : Nat) : RunRes :=
  match Template.render renderT transformers layouts t with
  | .error e => .err e
  | .ok c =>
    let ctx := Dict.set t.context kContent (.str c)
    match Dict.find ctx kLayout with
    | none => .err .keyError
    | some v =>
      match layoutsGet layouts (some v) with
      | .error e => .err e
      | .ok l0 =>
        match (match l0 with
               | some l => nextLayout layouts l
               | none => .ok none) with
        | .error e => .err e
        | .ok l1 =>
          match chainLoop renderT layouts fuel ctx l1 with
          | none => .diverged
          | some res =>
            match res with
            | .error e => .err e
            | .ok ctxF =>
              match Dict.find ctxF kContent with
              | none => .err .keyError
              | some w =>
                match w with
                | .str s => .ok s
                | _ => .err .typeError

/-!
Post: a Template whose basename stem decomposes as year-month-day-slug,
with derived date, url, path, and normalized categories.
-/

/-- Leap year as datetime uses it. -/
def isLeap (y : Int) : Prop := y % 4 = 0 ∧ (¬ y % 100 = 0 ∨ y % 400 = 0)

instance (y : Int) : Decidable (isLeap y) := by unfold isLeap; infer_instance

/-- Days in a month, as datetime validates them. -/
def daysInMonth (y m : Int) : Int :=
  if m = 2 then (if isLeap y then 29 else 28)
  else if m = 4 ∨ m = 6 ∨ m = 9 ∨ m = 11 then 30
  else 31

/-- Arguments accepted by datetime.datetime(y, m, d); out-of-range
values raise ValueError. -/
def dateOK (y m d : Int) : Prop :=
  1 ≤ y ∧ y ≤ 9999 ∧ 1 ≤ m ∧ m ≤ 12 ∧ 1 ≤ d ∧ d ≤ daysInMonth y m

instance (y m d : Int) : Decidable (dateOK y m d) := by unfold dateOK; infer_instance

/-- Category token normalization at Post construction:
[c.strip() for c in cats.split(',') if c] — split on commas, keep the
truthy (nonempty) raw tokens, strip each. -/
def normTokens (cats : Str) : List Str :=
  ((pySplitAll ',' cats).filter (fun c => ¬ (c = []))).map pyStrip

/-- Comma-join of the category and categories metadata values,
','.join((ctx.get('category',''), ctx.get('categories',''))); joining a
non-string value raises TypeError. -/
def catsRaw (ctx : Ctx) : Except PyErr Str :=
  match Ctx.getD ctx kCategory (.str []), Ctx.getD ctx kCategories (.str []) with
  | .str a, .str b => .ok (a ++ ',' :: b)
  | _, _ => .error .typeError

/-- State of a Post after construction. -/
structure PostS where
  year : Str
  month : Str
  day : Str
  slug : Str
  context : Ctx
deriving DecidableEq

/-- Derived-field injection of Post.__init__: self.context.date,
self.context.url and self.context.path, where path is
os.path.join(year, month, day) and url is '/'.join((path, slug)). -/
def Post.inject (ctx : Ctx) (y m d slug : Str) (yi mi di : Int) : Ctx :=
  let path := posixJoin (posixJoin y m) d
  Dict.set
    (Dict.set (Dict.set ctx kDate (.date yi mi di))
      kUrl (.str (path ++ '/' :: slug)))
    kPath (.str path)

/-- Category rebinding of Post.__init__: delete the raw category and
categories keys, then store the normalized token list under categories. -/
def Post.bindCategories (ctx : Ctx) (cats : Str) : Ctx :=
  Dict.set (Dict.del (Dict.del ctx kCategory) kCategories)
    kCategories (.strList (normTokens cats))

/-- The Post-specific part of Post.__init__, lines 132-147 of growl.py,
running on the context produced by the Template constructor: unpack the
basename stem into exactly four dash-separated fields (fewer raise
ValueError), inject date (int conversion and datetime range errors raise
ValueError), url and path, then normalize categories (TypeError on
non-string values) and rebind the categories key. -/
def Post.construct (filename : Str) (ctx : Ctx) : Except PyErr PostS :=
  match pySplitMax '-' 3 (splitextStem (pyBasename filename)) with
  | [y, m, d, slug] =>
    match pyInt y, pyInt m, pyInt d with
    | some yi, some mi, some di =>
      if dateOK yi mi di then
        match catsRaw (Post.inject ctx y m d slug yi mi di) with
        | .ok cats =>
          .ok ⟨y, m, d, slug, Post.bindCategories (Post.inject ctx y m d slug yi mi di) cats⟩
        | .error e => .error e
      else .error .valueError
    | _, _, _ => .error .valueError
  | _ => .error .valueError

/-- Post.path property: os.path.join(year, month, day). -/
def Post.path (p : PostS) : Str := posixJoin (posixJoin p.year p.month) p.day

/-- Deploy-relative target of Post.write:
os.path.join(self.path, self.slug, 'index.html'). -/
def Post.writeRel (p : PostS) : Str :=
  posixJoin (posixJoin (Post.path p) p.slug) kIndexHtml

/-- Template.write's output filename, os.path.join(DEPLOY_DIR, path). -/
def Template.writeTarget (deploy : Str) (path : Str) : Str := posixJoin deploy path

/-- Full target of Post.write under the deploy root. -/
def Post.writeTarget (deploy : Str) (p : PostS) : Str :=
  Template.writeTarget deploy (Post.writeRel p)

/-!
Site.calc_categories: fold over posts in load order; for every name in
a post's categories list, append the post to that category's bucket,
creating the bucket on first use (dict.setdefault(cat, []).append(post)).
-/

/-- One setdefault-append step. -/
def addCat {α : Type} (acc : List (Str × List α)) (c : Str) (p : α) :
    List (Str × List α) :=
  match Dict.find acc c with
  | some l => Dict.set acc c (l ++ [p])
  | none => acc ++ [(c, [p])]

/-- Site.calc_categories over an abstract post type with a categories
projection (for a constructed Post this is the strList stored under the
categories key). -/
def calcCategories {α : Type} (cats : α → List Str) (posts : List α) :
    List (Str × List α) :=
  posts.foldl (fun acc p => (cats p).foldl (fun a c => addCat a c p) acc) []

/-!
Heap model for AttrDict.copy: a store of dict objects addressed by
reference, so that aliasing between an AttrDict and its copy is
expressible.  AttrDict.copy allocates a fresh dict holding the same
top-level pairs; item assignment and deletion mutate one reference.
-/

/-- Store of AttrDict objects. -/
abbrev Store := List Ctx

/-- Dereference: the dict held at reference r. -/
def Store.getDict (st : Store) (r : Nat) : Ctx := st.getD r []

/-- AttrDict.copy / dict.copy: allocate a fresh object with the same
top-level pairs and return its reference. -/
def AttrDict.copy (st : Store) (r : Nat) : Store × Nat :=
  (st ++ [Store.getDict st r], st.length)

/-- Item assignment d[k] = v on the object at r (also attribute
assignment, AttrDict.__setattr__). -/
def Store.setItem (st : Store) (r : Nat) (k : Str) (v : Value) : Store :=
  st.set r (Dict.set (Store.getDict st r) k v)

/-- Item deletion del d[k] on the object at r. -/
def Store.delItem (st : Store) (r : Nat) (k : Str) : Store :=
  st.set r (Dict.del (Store.getDict st r) k)

/-!
Claim C5 — context copy isolation.
-/

/-- C5: for every store, valid AttrDict reference, key and value, adding,
overwriting, or removing a key on the dict returned by AttrDict.copy
leaves the original dict's top-level pairs (its key set and their
values) unchanged. -/
theorem attrdict_copy_isolation (st : Store) (r : Nat) (k : Str) (v : Value)
    (h : r < st.length) :
    Store.getDict (Store.setItem (AttrDict.copy st r).1 (AttrDict.copy st r).2 k v) r =
      Store.getDict st r ∧
    Store.getDict (Store.delItem (AttrDict.copy st r).1 (AttrDict.copy st r).2 k) r =
      Store.getDict st r := by
  have hne : st.length ≠ r := (Nat.ne_of_lt h).symm
  have key : ∀ x : Ctx,
      Store.getDict ((st ++ [Store.getDict st r]).set st.length x) r = Store.getDict st r := by
    intro x
    unfold Store.getDict
    rw [List.getD_eq_getElem?_getD, List.getD_eq_getElem?_getD,
        List.getElem?_set_ne hne, List.getElem?_append_left h]
  exact ⟨key _, key _⟩

theorem attrdict_copy_isolation_witness :
    0 < ([[("a".data, Value.vint 1)]] : Store).length ∧
    (Store.getDict
        (Store.setItem (AttrDict.copy [[("a".data, Value.vint 1)]] 0).1
          (AttrDict.copy [[("a".data, Value.vint 1)]] 0).2 "b".data (Value.vint 2)) 0 =
      Store.getDict [[("a".data, Value.vint 1)]] 0 ∧
    Store.getDict
        (Store.delItem (AttrDict.copy [[("a".data, Value.vint 1)]] 0).1
          (AttrDict.copy [[("a".data, Value.vint 1)]] 0).2 "a".data) 0 =
      Store.getDict [[("a".data, Value.vint 1)]] 0) :=
  ⟨by decide, attrdict_copy_isolation [[("a".data, Value.vint 1)]] 0 "b".data (Value.vint 2)
      (by decide) |>.1,
    attrdict_copy_isolation [[("a".data, Value.vint 1)]] 0 "a".data (Value.vint 2)
      (by decide) |>.2⟩

/-!
Claims C9 and C3 — layout lookup error and fallback behavior.
-/

/-- The while loop finishes immediately, at any fuel, once the current
layout is None. -/
theorem chainLoop_none (renderT : Str → Ctx → Str) (layouts : Layouts)
    (fuel : Nat) (ctx : Ctx) :
    chainLoop renderT layouts fuel ctx none = some (.ok ctx) := by
  cases fuel <;> rfl

/-- One unfolding step of the while loop on a live layout. -/
theorem chainLoop_succ (renderT : Str → Ctx → Str) (layouts : Layouts)
    (n : Nat) (ctx : Ctx) (l : LayoutS) :
    chainLoop renderT layouts (n + 1) ctx (some l) =
      (match nextLayout layouts l with
       | .error e => some (.error e)
       | .ok nxt => chainLoop renderT layouts n
           (Dict.set ctx kContent (.str (renderT l.content ctx))) nxt) := rfl

/-- C9: when the merged context has no layout key at all, render() and
the full-chain layout() raise KeyError through attribute-style lookup
(they do not fall back to the bare content); the silent fallback is
reserved for a layout key that is present. -/
theorem render_missing_layout_raises (renderT : Str → Ctx → Str)
    (transformers : Transformers) (layouts : Layouts) (t : TemplateS) (fuel : Nat)
    (h : Dict.find t.context kLayout = none) :
    Template.render renderT transformers layouts t = .error .keyError ∧
    Template.layout renderT transformers layouts t fuel = .err .keyError := by
  have hset : ∀ vv : Value,
      Dict.find (Dict.set t.context kContent vv) kLayout = none := by
    intro vv
    rw [Dict.find_set_ne _ _ _ _ (by decide)]
    exact h
  have hr : Template.render renderT transformers layouts t = .error .keyError := by
    simp only [Template.render]
    rw [hset]
  refine ⟨hr, ?_⟩
  simp only [Template.layout]
  rw [hr]

theorem render_missing_layout_raises_witness :
    Dict.find ([] : Ctx) kLayout = none ∧
    (Template.render (fun s _ => s) [] [] ⟨"a.md".data, "hi".data, []⟩ = .error .keyError ∧
    Template.layout (fun s _ => s) [] [] ⟨"a.md".data, "hi".data, []⟩ 5 = .err .keyError) :=
  ⟨by decide, render_missing_layout_raises (fun s _ => s) [] [] ⟨"a.md".data, "hi".data, []⟩ 5
    (by decide)⟩

/-- C3 counterexample: a list-valued layout key (front matter
layout: [a]) is not a key of the layout mapping, yet render() and the
full chain do fail on it: the unhashable list makes the dict lookup
self.layouts.get raise TypeError. -/
theorem render_unknown_layout_counterexample :
    layoutsGet [("base".data, (⟨"base".data, "B".data, []⟩ : LayoutS))]
      (some (.strList ["a".data])) = .error .typeError ∧
    Template.render (fun s _ => s) [] [("base".data, ⟨"base".data, "B".data, []⟩)]
      ⟨"p.md".data, "hi".data, [(kLayout, Value.strList ["a".data])]⟩ = .error .typeError ∧
    Template.layout (fun s _ => s) [] [("base".data, ⟨"base".data, "B".data, []⟩)]
      ⟨"p.md".data, "hi".data, [(kLayout, Value.strList ["a".data])]⟩ 3 = .err .typeError :=
  ⟨by decide, by decide, by decide⟩

/-- C3 (amended): when the context's layout value is a string naming no
key of the layout mapping, render() returns the document's own rendered
content and the full chain walk stops at once with that same content,
at every fuel — no failure; a non-string unhashable layout value
instead raises TypeError (see the counterexample). -/
theorem render_unknown_layout_falls_back (renderT : Str → Ctx → Str)
    (transformers : Transformers) (layouts : Layouts) (t : TemplateS) (s : Str) (fuel : Nat)
    (h1 : Dict.find t.context kLayout = some (.str s))
    (h2 : Dict.find layouts s = none) :
    Template.render renderT transformers layouts t =
      .ok (renderT (Template.transform transformers t) t.context) ∧
    Template.layout renderT transformers layouts t fuel =
      .ok (renderT (Template.transform transformers t) t.context) := by
  have hset : Dict.find
      (Dict.set t.context kContent
        (.str (renderT (Template.transform transformers t) t.context)))
      kLayout = some (.str s) := by
    rw [Dict.find_set_ne _ _ _ _ (by decide)]
    exact h1
  have hg : layoutsGet layouts (some (.str s)) = .ok none := by
    simp only [layoutsGet, h2]
  have hr : Template.render renderT transformers layouts t =
      .ok (renderT (Template.transform transformers t) t.context) := by
    simp only [Template.render, hset, hg]
  refine ⟨hr, ?_⟩
  simp only [Template.layout, hr, hset, hg, chainLoop_none, Dict.find_set_self]

theorem render_unknown_layout_falls_back_witness :
    Dict.find [(kLayout, Value.str "nosuch".data)] kLayout =
      some (.str "nosuch".data) ∧
    Dict.find [("base".data, (⟨"base".data, "B".data, []⟩ : LayoutS))] "nosuch".data =
      none ∧
    (Template.render (fun s _ => s) [] [("base".data, ⟨"base".data, "B".data, []⟩)]
        ⟨"p.md".data, "hi".data, [(kLayout, .str "nosuch".data)]⟩ = .ok "hi".data ∧
    Template.layout (fun s _ => s) [] [("base".data, ⟨"base".data, "B".data, []⟩)]
        ⟨"p.md".data, "hi".data, [(kLayout, .str "nosuch".data)]⟩ 7 = .ok "hi".data) :=
  ⟨by decide, by decide,
    render_unknown_layout_falls_back (fun s _ => s) []
      [("base".data, ⟨"base".data, "B".data, []⟩)]
      ⟨"p.md".data, "hi".data, [(kLayout, .str "nosuch".data)]⟩
      "nosuch".data 7 (by decide) (by decide)⟩

/-!
Claim C2 — the metadata-block parser is not total.
-/

/-- Decoder model for the concrete checks below: the external YAML
library returns the empty document (None) for a stream holding only
whitespace, and a mapping for the mapping-shaped headers exercised
here. -/
def yamlLoadModel (s : Str) : PyObj :=
  if s.all isPySpace then .pnone else .pdict []

/-- C2: the parse is not total.  On a document that starts with an
empty front-matter block, the regex's yaml group captures the single
newline (a truthy string), the decoder yields the empty document, and
dict.update(None) raises TypeError; by contrast, a document with no
block at all passes through unchanged with no metadata merged. -/
theorem read_yaml_empty_block_crash :
    reYamlMatch "---\n---\nbody".data = some ("\n".data, "\nbody".data) ∧
    read_yaml yamlLoadModel [] "---\n---\nbody".data = .error .typeError ∧
    read_yaml yamlLoadModel [("k".data, Value.vint 0)] "plain body".data =
      .ok ([("k".data, Value.vint 0)], "plain body".data) :=
  ⟨by decide, by decide, by decide⟩

/-!
Claim C4 — termination of the chain walk.
-/

/-- A layout declaring itself as its own parent. -/
def cycLayout : LayoutS := ⟨"a".data, "X".data, [(kLayout, Value.str "a".data)]⟩

/-- A layout mapping containing only the self-parenting layout. -/
def cycLayouts : Layouts := [("a".data, cycLayout)]

/-- A document whose layout is the self-parenting layout. -/
def cycDoc : TemplateS := ⟨"p.md".data, "hi".data, [(kLayout, Value.str "a".data)]⟩

/-- C4 counterexample: with a cyclic layout mapping the chain walk of
Template.layout never finishes — at every fuel the while loop is still
running, so the walk infinite-loops on this input. -/
theorem layout_cycle_diverges :
    ¬ ∃ n, Template.layout (fun s _ => s) [] cycLayouts cycDoc n ≠ RunRes.diverged := by
  have hnext : nextLayout cycLayouts cycLayout = .ok (some cycLayout) := by decide
  have loop : ∀ m ctx, chainLoop (fun s _ => s) cycLayouts m ctx (some cycLayout) = none := by
    intro m
    induction m with
    | zero => intro ctx; rfl
    | succ k ih =>
      intro ctx
      rw [chainLoop_succ, hnext]
      exact ih _
  have hrender : Template.render (fun s _ => s) [] cycLayouts cycDoc = .ok "X".data := by
    decide
  have hfind : Dict.find (Dict.set cycDoc.context kContent (Value.str "X".data)) kLayout =
      some (.str "a".data) := by decide
  have hl0 : layoutsGet cycLayouts (some (.str "a".data)) = .ok (some cycLayout) := by
    decide
  rintro ⟨n, hn⟩
  apply hn
  simp only [Template.layout, hrender, hfind, hl0, hnext, loop]

/-- Membership of a parent-lookup result in the layout mapping. -/
theorem nextLayout_mem {layouts : Layouts} {l l' : LayoutS}
    (h : nextLayout layouts l = .ok (some l')) : ∃ k, (k, l') ∈ layouts := by
  unfold nextLayout at h
  cases hp : Layout.parent l with
  | none => rw [hp] at h; simp [layoutsGet] at h
  | some v =>
    rw [hp] at h
    cases v with
    | str s =>
      simp only [layoutsGet] at h
      injection h with h
      exact ⟨s, Dict.find_mem h⟩
    | vint n => simp [layoutsGet] at h
    | date y m d => simp [layoutsGet] at h
    | strList ls => simp [layoutsGet] at h

/-- Fuel bound for the while loop: when a rank decreases across every
parent link of the mapping, the loop finishes from any member layout
(either normally or with an exception from a lookup). -/
theorem chainLoop_terminates (renderT : Str → Ctx → Str) (layouts : Layouts)
    (rk : LayoutS → Nat)
    (h : ∀ p ∈ layouts, ∀ l', nextLayout layouts p.2 = .ok (some l') → rk l' < rk p.2) :
    ∀ N l, rk l ≤ N → (∃ k, (k, l) ∈ layouts) → ∀ ctx,
      ∃ n r, chainLoop renderT layouts n ctx (some l) = some r := by
  intro N
  induction N with
  | zero =>
    intro l hle hmem ctx
    cases hnx : nextLayout layouts l with
    | error e =>
      refine ⟨1, .error e, ?_⟩
      rw [chainLoop_succ, hnx]
    | ok nxt =>
      cases nxt with
      | none =>
        refine ⟨1, .ok (Dict.set ctx kContent (.str (renderT l.content ctx))), ?_⟩
        rw [chainLoop_succ, hnx]
        rfl
      | some l2 =>
        obtain ⟨k, hk⟩ := hmem
        have hlt : rk l2 < rk l := h (k, l) hk l2 hnx
        omega
  | succ N ih =>
    intro l hle hmem ctx
    cases hnx : nextLayout layouts l with
    | error e =>
      refine ⟨1, .error e, ?_⟩
      rw [chainLoop_succ, hnx]
    | ok nxt =>
      cases nxt with
      | none =>
        refine ⟨1, .ok (Dict.set ctx kContent (.str (renderT l.content ctx))), ?_⟩
        rw [chainLoop_succ, hnx]
        rfl
      | some l2 =>
        obtain ⟨k, hk⟩ := hmem
        have hlt : rk l2 < rk l := h (k, l) hk l2 hnx
        obtain ⟨n, r, hn⟩ := ih l2 (by omega) (nextLayout_mem hnx)
          (Dict.set ctx kContent (.str (renderT l.content ctx)))
        refine ⟨n + 1, r, ?_⟩
        rw [chainLoop_succ, hnx]
        exact hn

/-- C4 amended: the source has no cycle guard, so the chain walk need
not terminate (see the counterexample); it does terminate on every
document whenever the declared parent links of the mapping admit a
strictly decreasing rank — in particular whenever the parent chain is
acyclic. -/
theorem layout_chain_terminates_of_ranked (renderT : Str → Ctx → Str)
    (transformers : Transformers) (layouts : Layouts) (rk : LayoutS → Nat)
    (hrk : ∀ p ∈ layouts, ∀ l', nextLayout layouts p.2 = .ok (some l') → rk l' < rk p.2)
    (t : TemplateS) :
    ∃ n, Template.layout renderT transformers layouts t n ≠ RunRes.diverged := by
  cases hrender : Template.render renderT transformers layouts t with
  | error e =>
    refine ⟨0, ?_⟩
    simp only [Template.layout, hrender]
    intro hh
    exact RunRes.noConfusion hh
  | ok c =>
    cases hfind : Dict.find (Dict.set t.context kContent (Value.str c)) kLayout with
    | none =>
      refine ⟨0, ?_⟩
      simp only [Template.layout, hrender, hfind]
      intro hh
      exact RunRes.noConfusion hh
    | some v =>
      cases hl0 : layoutsGet layouts (some v) with
      | error e =>
        refine ⟨0, ?_⟩
        simp only [Template.layout, hrender, hfind, hl0]
        intro hh
        exact RunRes.noConfusion hh
      | ok l0 =>
        have final : ∀ n l1,
            (match l0 with
             | some l => nextLayout layouts l
             | none => Except.ok none) = .ok l1 →
            ∀ r, chainLoop renderT layouts n (Dict.set t.context kContent (Value.str c)) l1 =
              some r →
            Template.layout renderT transformers layouts t n ≠ RunRes.diverged := by
          intro n l1 hl1 r hloop
          cases r with
          | error e =>
            simp only [Template.layout, hrender, hfind, hl0, hl1, hloop]
            intro hh
            exact RunRes.noConfusion hh
          | ok ctxF =>
            simp only [Template.layout, hrender, hfind, hl0, hl1, hloop]
            cases Dict.find ctxF kContent with
            | none => intro hh; exact RunRes.noConfusion hh
            | some w =>
              cases w <;> intro hh <;> exact RunRes.noConfusion hh
        cases l0 with
        | none =>
          exact ⟨0, final 0 none rfl (.ok _) (chainLoop_none renderT layouts 0 _)⟩
        | some l =>
          cases hnx : nextLayout layouts l with
          | error e =>
            refine ⟨0, ?_⟩
            simp only [Template.layout, hrender, hfind, hl0, hnx]
            intro hh
            exact RunRes.noConfusion hh
          | ok nxt =>
            cases nxt with
            | none =>
              exact ⟨0, final 0 none hnx (.ok _) (chainLoop_none renderT layouts 0 _)⟩
            | some l2 =>
              obtain ⟨n, r, hn⟩ := chainLoop_terminates renderT layouts rk hrk (rk l2) l2
                (Nat.le_refl _) (nextLayout_mem hnx)
                (Dict.set t.context kContent (Value.str c))
              exact ⟨n, final n (some l2) hnx r hn⟩

/-- A layout with no declared parent. -/
def witLayoutB : LayoutS := ⟨"b".data, "Y".data, []⟩

/-- A one-element acyclic layout mapping. -/
def witLayouts : Layouts := [("b".data, witLayoutB)]

theorem layout_chain_terminates_witness :
    ∃ n, Template.layout (fun s _ => s) [] witLayouts
      ⟨"p.md".data, "hi".data, [(kLayout, Value.str "b".data)]⟩ n ≠ RunRes.diverged :=
  layout_chain_terminates_of_ranked (fun s _ => s) [] witLayouts (fun _ => 0)
    (by
      intro p hp l' hn
      have hpb : p = ("b".data, witLayoutB) := by
        simpa [witLayouts] using hp
      rw [hpb] at hn
      simp [nextLayout, layoutsGet, Layout.parent, witLayoutB, Dict.find] at hn)
    ⟨"p.md".data, "hi".data, [(kLayout, Value.str "b".data)]⟩

/-!
Claims C10, C7, C1 — Post construction.
-/

/-- Inversion of a successful Post construction: the stem split into
exactly four fields, the date fields converted and validated, the
category join succeeded, and the final context is the injected context
with its categories rebound. -/
theorem Post.construct_ok {fn : Str} {ctx : Ctx} {p : PostS}
    (h : Post.construct fn ctx = .ok p) :
    ∃ yi mi di cats,
      pySplitMax '-' 3 (splitextStem (pyBasename fn)) = [p.year, p.month, p.day, p.slug] ∧
      pyInt p.year = some yi ∧ pyInt p.month = some mi ∧ pyInt p.day = some di ∧
      dateOK yi mi di ∧
      catsRaw (Post.inject ctx p.year p.month p.day p.slug yi mi di) = .ok cats ∧
      p.context = Post.bindCategories (Post.inject ctx p.year p.month p.day p.slug yi mi di) cats := by
  unfold Post.construct at h
  split at h
  case _ y m d slug heq =>
    split at h
    case _ yi mi di hy hm hd =>
      split at h
      case isTrue hok =>
        split at h
        case _ cats hcats =>
          injection h with h
          subst h
          exact ⟨yi, mi, di, cats, heq, hy, hm, hd, hok, hcats, rfl⟩
        case _ e he => exact Except.noConfusion h
      case isFalse hok => exact Except.noConfusion h
    case _ _ _ _ => exact Except.noConfusion h
  case _ _ => exact Except.noConfusion h

/-- C10: after every successful Post construction the raw category key
is gone, the categories key holds a list of strings, and a post with
neither raw key ends with the empty list bound (not a missing key). -/
theorem post_categories_rebound (fn : Str) (ctx : Ctx) (p : PostS)
    (h : Post.construct fn ctx = .ok p) :
    Dict.find p.context kCategory = none ∧
    (∃ l, Dict.find p.context kCategories = some (.strList l) ∧
      (Dict.find ctx kCategory = none → Dict.find ctx kCategories = none → l = [])) := by
  obtain ⟨yi, mi, di, cats, hsp, hy, hm, hd, hok, hcats, hctx⟩ := Post.construct_ok h
  refine ⟨?_, normTokens cats, ?_, ?_⟩
  · rw [hctx]
    unfold Post.bindCategories
    rw [Dict.find_set_ne _ _ _ _ (by decide), Dict.find_del_ne _ _ _ (by decide),
        Dict.find_del_self]
  · rw [hctx]
    unfold Post.bindCategories
    exact Dict.find_set_self _ _ _
  · intro h1 h2
    have hfind1 : Dict.find (Post.inject ctx p.year p.month p.day p.slug yi mi di) kCategory =
        none := by
      unfold Post.inject
      rw [Dict.find_set_ne _ _ _ _ (by decide), Dict.find_set_ne _ _ _ _ (by decide),
          Dict.find_set_ne _ _ _ _ (by decide)]
      exact h1
    have hfind2 : Dict.find (Post.inject ctx p.year p.month p.day p.slug yi mi di) kCategories =
        none := by
      unfold Post.inject
      rw [Dict.find_set_ne _ _ _ _ (by decide), Dict.find_set_ne _ _ _ _ (by decide),
          Dict.find_set_ne _ _ _ _ (by decide)]
      exact h2
    have hjoin : catsRaw (Post.inject ctx p.year p.month p.day p.slug yi mi di) = .ok [','] := by
      unfold catsRaw Ctx.getD
      rw [hfind1, hfind2]
      rfl
    have hc : ([','] : Str) = cats := by
      have := hjoin.symm.trans hcats
      injection this
    rw [← hc]
    decide

theorem post_categories_rebound_witness :
    ∃ p, Post.construct "2024-03-05-hello.md".data [] = .ok p ∧
      (Dict.find p.context kCategory = none ∧
      (∃ l, Dict.find p.context kCategories = some (.strList l) ∧
        (Dict.find ([] : Ctx) kCategory = none → Dict.find ([] : Ctx) kCategories = none →
          l = []))) :=
  ⟨⟨"2024".data, "03".data, "05".data, "hello".data,
      [(kDate, .date 2024 3 5),
       (kUrl, .str "2024/03/05/hello".data),
       (kPath, .str "2024/03/05".data),
       (kCategories, .strList [])]⟩,
    by decide,
    post_categories_rebound "2024-03-05-hello.md".data []
      ⟨"2024".data, "03".data, "05".data, "hello".data,
        [(kDate, .date 2024 3 5),
         (kUrl, .str "2024/03/05/hello".data),
         (kPath, .str "2024/03/05".data),
         (kCategories, .strList [])]⟩
      (by decide)⟩

/-- A basename never contains a path separator. -/
theorem pyBasename_no_slash (l : Str) : '/' ∉ pyBasename l := by
  intro hmem
  unfold pyBasename at hmem
  rw [List.mem_reverse] at hmem
  have := List.mem_takeWhile_imp hmem
  simp at this

/-- Both halves of a first-separator split are made of characters of the
input. -/
theorem splitFirst_mem {sep : Char} {l a b : Str} (h : splitFirst sep l = some (a, b)) :
    (∀ c ∈ a, c ∈ l) ∧ (∀ c ∈ b, c ∈ l) := by
  induction l generalizing a b with
  | nil => exact Option.noConfusion h
  | cons x t ih =>
    unfold splitFirst at h
    by_cases hx : x = sep
    · rw [if_pos hx] at h
      injection h with h
      have ha : a = [] := (congrArg Prod.fst h).symm
      have hb : b = t := (congrArg Prod.snd h).symm
      subst ha
      subst hb
      exact ⟨fun c hc => absurd hc (List.not_mem_nil c),
        fun c hc => List.mem_cons_of_mem _ hc⟩
    · rw [if_neg hx] at h
      cases hsf : splitFirst sep t with
      | none => rw [hsf] at h; exact Option.noConfusion h
      | some ab =>
        rw [hsf] at h
        injection h with h
        have ha : a = x :: ab.1 := (congrArg Prod.fst h).symm
        have hb : b = ab.2 := (congrArg Prod.snd h).symm
        subst ha
        subst hb
        have hr := ih (a := ab.1) (b := ab.2) (by rw [hsf])
        constructor
        · intro c hc
          cases List.mem_cons.mp hc with
          | inl he => rw [he]; exact List.mem_cons_self _ _
          | inr he => exact List.mem_cons_of_mem _ (hr.1 c he)
        · intro c hc
          exact List.mem_cons_of_mem _ (hr.2 c hc)

/-- Every field produced by a bounded split is made of characters of the
input. -/
theorem pySplitMax_mem {sep : Char} {n : Nat} {l part : Str}
    (hp : part ∈ pySplitMax sep n l) : ∀ c ∈ part, c ∈ l := by
  induction n generalizing l part with
  | zero =>
    unfold pySplitMax at hp
    rw [List.mem_singleton] at hp
    subst hp
    exact fun c hc => hc
  | succ k ih =>
    unfold pySplitMax at hp
    cases hsf : splitFirst sep l with
    | none =>
      rw [hsf, List.mem_singleton] at hp
      subst hp
      exact fun c hc => hc
    | some ab =>
      rw [hsf] at hp
      cases List.mem_cons.mp hp with
      | inl he =>
        subst he
        exact (splitFirst_mem hsf).1
      | inr he =>
        exact fun c hc => (splitFirst_mem hsf).2 c (ih he c hc)

/-- The stem is made of characters of the input. -/
theorem splitextStem_mem {l : Str} : ∀ c ∈ splitextStem l, c ∈ l := by
  intro c hc
  unfold splitextStem at hc
  split at hc
  · exact hc
  · split at hc
    · exact List.mem_of_mem_take hc
    · exact hc

/-- A string that int() accepts is nonempty. -/
theorem pyInt_ne_nil {l : Str} {v : Int} (h : pyInt l = some v) : l ≠ [] := by
  intro he
  subst he
  have hn : pyInt ([] : Str) = none := rfl
  rw [hn] at h
  exact Option.noConfusion h

/-- Head disequality from non-membership. -/
theorem head?_ne_of_not_mem {l : Str} {c : Char} (h : c ∉ l) : l.head? ≠ some c := by
  intro he
  exact h (List.mem_of_mem_head? (by simp [he]))

/-- Last-element disequality from non-membership. -/
theorem getLast?_ne_of_not_mem {l : Str} {c : Char} (h : c ∉ l) : l.getLast? ≠ some c := by
  intro he
  exact h (List.mem_of_mem_getLast? (by simp [he]))

/-- Last element across an appended separator block. -/
theorem getLast?_append_cons {a : Str} {c : Char} {b : Str} (hb : b ≠ []) :
    (a ++ c :: b).getLast? = b.getLast? := by
  rw [List.getLast?_append_of_ne_nil _ (by simp)]
  cases b with
  | nil => exact absurd rfl hb
  | cons x t =>
    rw [show c :: x :: t = [c] ++ x :: t from rfl,
        List.getLast?_append_of_ne_nil _ (by simp)]

/-- posixpath.join inserts exactly one separator in the common case. -/
theorem posixJoin_eq {a b : Str} (hb : b.head? ≠ some '/') (ha : a ≠ [])
    (ha' : a.getLast? ≠ some '/') : posixJoin a b = a ++ '/' :: b := by
  unfold posixJoin
  rw [if_neg hb, if_neg (fun hor => hor.elim ha ha')]

/-- The three date components of a slash-free stem join into the plain
slash-separated path. -/
theorem post_path_concat {y m d : Str} (hy : y ≠ []) (hm : m ≠ [])
    (hny : '/' ∉ y) (hnm : '/' ∉ m) (hnd : '/' ∉ d) :
    posixJoin (posixJoin y m) d = y ++ '/' :: (m ++ '/' :: d) := by
  rw [posixJoin_eq (head?_ne_of_not_mem hnm) hy (getLast?_ne_of_not_mem hny)]
  rw [posixJoin_eq (head?_ne_of_not_mem hnd) (by simp)
    (by rw [getLast?_append_cons hm]; exact getLast?_ne_of_not_mem hnm)]
  simp

/-- The four fields of a successfully constructed post are slash-free. -/
theorem post_parts_no_slash {fn : Str} {y m d slug : Str}
    (hsp : pySplitMax '-' 3 (splitextStem (pyBasename fn)) = [y, m, d, slug]) :
    '/' ∉ y ∧ '/' ∉ m ∧ '/' ∉ d ∧ '/' ∉ slug := by
  have base : ∀ part : Str, part ∈ pySplitMax '-' 3 (splitextStem (pyBasename fn)) →
      '/' ∉ part := by
    intro part hp hmem
    exact pyBasename_no_slash fn (splitextStem_mem _ (pySplitMax_mem hp '/' hmem))
  rw [hsp] at base
  exact ⟨base y (by simp), base m (by simp), base d (by simp), base slug (by simp)⟩

/-- C7: every constructed Post with a nonempty slug writes to exactly
the deploy-relative path year/month/day/slug/index.html under the
deploy root, whatever the context holds (in particular any permalink
value is ignored by the writer). -/
theorem post_write_path (fn : Str) (ctx : Ctx) (p : PostS) (deploy : Str)
    (h : Post.construct fn ctx = .ok p) (hs : p.slug ≠ []) :
    Post.writeRel p =
      p.year ++ '/' :: (p.month ++ '/' :: (p.day ++ '/' :: (p.slug ++ '/' :: kIndexHtml))) ∧
    Post.writeTarget deploy p =
      posixJoin deploy
        (p.year ++ '/' :: (p.month ++ '/' :: (p.day ++ '/' :: (p.slug ++ '/' :: kIndexHtml)))) := by
  obtain ⟨yi, mi, di, cats, hsp, hy, hm, hd, hok, hcats, hctx⟩ := Post.construct_ok h
  obtain ⟨hny, hnm, hnd, hns⟩ := post_parts_no_slash hsp
  have hyne : p.year ≠ [] := pyInt_ne_nil hy
  have hmne : p.month ≠ [] := pyInt_ne_nil hm
  have hdne : p.day ≠ [] := pyInt_ne_nil hd
  have hpath : Post.path p = p.year ++ '/' :: (p.month ++ '/' :: p.day) :=
    post_path_concat hyne hmne hny hnm hnd
  have hrel : Post.writeRel p =
      p.year ++ '/' :: (p.month ++ '/' :: (p.day ++ '/' :: (p.slug ++ '/' :: kIndexHtml))) := by
    unfold Post.writeRel
    rw [hpath]
    rw [posixJoin_eq (head?_ne_of_not_mem hns) (by simp)
      (by rw [getLast?_append_cons (by simp)]
          rw [getLast?_append_cons hdne]
          exact getLast?_ne_of_not_mem hnd)]
    rw [posixJoin_eq (by decide) (by simp)
      (by simp only [List.cons_append, List.append_assoc]
          rw [getLast?_append_cons (by simp), getLast?_append_cons (by simp),
              getLast?_append_cons hs]
          exact getLast?_ne_of_not_mem hns)]
    simp
  exact ⟨hrel, by unfold Post.writeTarget Template.writeTarget; rw [hrel]⟩

theorem post_write_path_witness :
    ∃ p, Post.construct "2012-01-02-hi.md".data
        [("permalink".data, Value.str "/custom".data)] = .ok p ∧ p.slug ≠ [] ∧
      Post.writeTarget "_deploy".data p =
        posixJoin "_deploy".data
          (p.year ++ '/' :: (p.month ++ '/' :: (p.day ++ '/' :: (p.slug ++ '/' :: kIndexHtml)))) := by
  refine ⟨⟨"2012".data, "01".data, "02".data, "hi".data,
    [("permalink".data, Value.str "/custom".data),
     (kDate, .date 2012 1 2),
     (kUrl, .str "2012/01/02/hi".data),
     (kPath, .str "2012/01/02".data),
     (kCategories, .strList [])]⟩, ?_, ?_, ?_⟩
  · decide
  · decide
  · exact (post_write_path "2012-01-02-hi.md".data
      [("permalink".data, Value.str "/custom".data)] _ "_deploy".data
      (by decide) (by decide)).2

/-- A valid decomposition with an acceptable date and string-typed (or
absent) category metadata yields a successful construction whose
derived fields match the filename components exactly. -/
theorem Post.construct_valid {fn : Str} {ctx : Ctx} {y m d slug : Str} {yi mi di : Int}
    (hsp : pySplitMax '-' 3 (splitextStem (pyBasename fn)) = [y, m, d, slug])
    (hy : pyInt y = some yi) (hm : pyInt m = some mi) (hd : pyInt d = some di)
    (hok : dateOK yi mi di)
    (hcat : ∀ v, Dict.find ctx kCategory = some v → ∃ s, v = Value.str s)
    (hcats : ∀ v, Dict.find ctx kCategories = some v → ∃ s, v = Value.str s) :
    ∃ p, Post.construct fn ctx = .ok p ∧ p.year = y ∧ p.month = m ∧ p.day = d ∧
      p.slug = slug ∧
      Dict.find p.context kDate = some (.date yi mi di) ∧
      Dict.find p.context kPath = some (.str (y ++ '/' :: (m ++ '/' :: d))) ∧
      Dict.find p.context kUrl =
        some (.str (y ++ '/' :: (m ++ '/' :: (d ++ '/' :: slug)))) := by
  obtain ⟨hny, hnm, hnd, hns⟩ := post_parts_no_slash hsp
  have hpath : posixJoin (posixJoin y m) d = y ++ '/' :: (m ++ '/' :: d) :=
    post_path_concat (pyInt_ne_nil hy) (pyInt_ne_nil hm) hny hnm hnd
  have hfc : Dict.find (Post.inject ctx y m d slug yi mi di) kCategory =
      Dict.find ctx kCategory := by
    simp only [Post.inject]
    rw [Dict.find_set_ne _ _ _ _ (by decide), Dict.find_set_ne _ _ _ _ (by decide),
        Dict.find_set_ne _ _ _ _ (by decide)]
  have hfcs : Dict.find (Post.inject ctx y m d slug yi mi di) kCategories =
      Dict.find ctx kCategories := by
    simp only [Post.inject]
    rw [Dict.find_set_ne _ _ _ _ (by decide), Dict.find_set_ne _ _ _ _ (by decide),
        Dict.find_set_ne _ _ _ _ (by decide)]
  obtain ⟨a, hga⟩ : ∃ a, Ctx.getD (Post.inject ctx y m d slug yi mi di) kCategory (.str []) =
      .str a := by
    unfold Ctx.getD
    rw [hfc]
    cases hv : Dict.find ctx kCategory with
    | none => exact ⟨[], rfl⟩
    | some v =>
      obtain ⟨s, hs⟩ := hcat v hv
      exact ⟨s, by rw [hs]; rfl⟩
  obtain ⟨b, hgb⟩ : ∃ b, Ctx.getD (Post.inject ctx y m d slug yi mi di) kCategories (.str []) =
      .str b := by
    unfold Ctx.getD
    rw [hfcs]
    cases hv : Dict.find ctx kCategories with
    | none => exact ⟨[], rfl⟩
    | some v =>
      obtain ⟨s, hs⟩ := hcats v hv
      exact ⟨s, by rw [hs]; rfl⟩
  have hraw : catsRaw (Post.inject ctx y m d slug yi mi di) = .ok (a ++ ',' :: b) := by
    unfold catsRaw
    rw [hga, hgb]
  refine ⟨⟨y, m, d, slug,
    Post.bindCategories (Post.inject ctx y m d slug yi mi di) (a ++ ',' :: b)⟩,
    ?_, rfl, rfl, rfl, rfl, ?_, ?_, ?_⟩
  · unfold Post.construct
    simp only [hsp, hy, hm, hd]
    rw [if_pos hok]
    simp only [hraw]
  · simp only [Post.bindCategories, Post.inject]
    rw [Dict.find_set_ne _ _ _ _ (by decide), Dict.find_del_ne _ _ _ (by decide),
        Dict.find_del_ne _ _ _ (by decide), Dict.find_set_ne _ _ _ _ (by decide),
        Dict.find_set_ne _ _ _ _ (by decide), Dict.find_set_self]
  · simp only [Post.bindCategories, Post.inject]
    rw [Dict.find_set_ne _ _ _ _ (by decide), Dict.find_del_ne _ _ _ (by decide),
        Dict.find_del_ne _ _ _ (by decide), Dict.find_set_self, hpath]
  · simp only [Post.bindCategories, Post.inject]
    rw [Dict.find_set_ne _ _ _ _ (by decide), Dict.find_del_ne _ _ _ (by decide),
        Dict.find_del_ne _ _ _ (by decide), Dict.find_set_ne _ _ _ _ (by decide),
        Dict.find_set_self, hpath]
    simp [List.append_assoc]

/-- C1 (amended): construction succeeds, with date, path and url drawn
from the filename components exactly, for every filename whose stem
splits into year-month-day-slug with numeric date parts that form an
acceptable calendar date, provided the raw category metadata values (if
present) are strings; construction fails for a stem with fewer than
four dash-separated fields and for non-numeric date parts. -/
theorem post_construction_spec :
    (∀ fn ctx y m d slug yi mi di,
      pySplitMax '-' 3 (splitextStem (pyBasename fn)) = [y, m, d, slug] →
      pyInt y = some yi → pyInt m = some mi → pyInt d = some di →
      dateOK yi mi di →
      (∀ v, Dict.find ctx kCategory = some v → ∃ s, v = Value.str s) →
      (∀ v, Dict.find ctx kCategories = some v → ∃ s, v = Value.str s) →
      ∃ p, Post.construct fn ctx = .ok p ∧ p.year = y ∧ p.month = m ∧ p.day = d ∧
        p.slug = slug ∧
        Dict.find p.context kDate = some (.date yi mi di) ∧
        Dict.find p.context kPath = some (.str (y ++ '/' :: (m ++ '/' :: d))) ∧
        Dict.find p.context kUrl =
          some (.str (y ++ '/' :: (m ++ '/' :: (d ++ '/' :: slug))))) ∧
    (∀ fn ctx, (pySplitMax '-' 3 (splitextStem (pyBasename fn))).length ≠ 4 →
      Post.construct fn ctx = .error .valueError) ∧
    (∀ fn ctx y m d slug,
      pySplitMax '-' 3 (splitextStem (pyBasename fn)) = [y, m, d, slug] →
      pyInt y = none ∨ pyInt m = none ∨ pyInt d = none →
      Post.construct fn ctx = .error .valueError) := by
  refine ⟨fun fn ctx y m d slug yi mi di hsp hy hm hd hok hcat hcats =>
      Post.construct_valid hsp hy hm hd hok hcat hcats, ?_, ?_⟩
  · intro fn ctx hlen
    unfold Post.construct
    split
    case _ y m d slug heq => exact absurd (by rw [heq]; rfl) hlen
    case _ => rfl
  · intro fn ctx y m d slug hsp hnone
    unfold Post.construct
    simp only [hsp]
    cases hy' : pyInt y with
    | none => rfl
    | some yv =>
      cases hm' : pyInt m with
      | none => rfl
      | some mv =>
        cases hd' : pyInt d with
        | none => rfl
        | some dv =>
          rcases hnone with h0 | h0 | h0
          · rw [hy'] at h0; exact Option.noConfusion h0
          · rw [hm'] at h0; exact Option.noConfusion h0
          · rw [hd'] at h0; exact Option.noConfusion h0

/-- C1 counterexample: the stem of 2024-13-05-x.md splits into exactly
four dash-separated fields whose date parts are all numeric, yet
construction raises ValueError, because datetime rejects month 13; so
numeric parts alone do not guarantee success. -/
theorem post_construction_counterexample :
    pySplitMax '-' 3 (splitextStem (pyBasename "2024-13-05-x.md".data)) =
      ["2024".data, "13".data, "05".data, "x".data] ∧
    (pyInt "2024".data).isSome ∧ (pyInt "13".data).isSome ∧ (pyInt "05".data).isSome ∧
    Post.construct "2024-13-05-x.md".data [] = .error .valueError :=
  ⟨by decide, by decide, by decide, by decide, by decide⟩

theorem post_construction_spec_witness :
    ∃ p, Post.construct "2024-03-05-hello.md".data [] = .ok p ∧
      p.year = "2024".data ∧ p.month = "03".data ∧ p.day = "05".data ∧
      p.slug = "hello".data ∧
      Dict.find p.context kDate = some (.date 2024 3 5) ∧
      Dict.find p.context kPath =
        some (.str ("2024".data ++ '/' :: ("03".data ++ '/' :: "05".data))) ∧
      Dict.find p.context kUrl =
        some (.str ("2024".data ++ '/' ::
          ("03".data ++ '/' :: ("05".data ++ '/' :: "hello".data)))) :=
  post_construction_spec.1 "2024-03-05-hello.md".data [] "2024".data "03".data "05".data
    "hello".data 2024 3 5 (by decide) (by decide) (by decide) (by decide) (by decide)
    (fun _ hv => Option.noConfusion hv) (fun _ hv => Option.noConfusion hv)

/-!
Claim C6 — category normalization.
-/

/-- Fields produced by a comma split contain no comma. -/
theorem splitOn_no_sep {x : Char} {xs : Str} : ∀ t ∈ xs.splitOn x, x ∉ t := by
  induction xs with
  | nil =>
    intro t ht
    rw [List.splitOn_nil, List.mem_singleton] at ht
    subst ht
    exact List.not_mem_nil x
  | cons c cs ih =>
    intro t ht
    have hdef : (c :: cs).splitOn x =
        if c == x then [] :: cs.splitOn x else (cs.splitOn x).modifyHead (List.cons c) := by
      simp [List.splitOn, List.splitOnP_cons]
    rw [hdef] at ht
    by_cases hcx : c = x
    · rw [if_pos (by simp [hcx])] at ht
      cases List.mem_cons.mp ht with
      | inl he => subst he; exact List.not_mem_nil x
      | inr he => exact ih t he
    · rw [if_neg (by simp [hcx])] at ht
      cases hsp : cs.splitOn x with
      | nil => exact absurd hsp (List.splitOnP_ne_nil _ cs)
      | cons h0 t0 =>
        rw [hsp, List.modifyHead_cons] at ht
        cases List.mem_cons.mp ht with
        | inl he =>
          subst he
          intro hmemx
          cases List.mem_cons.mp hmemx with
          | inl hx => exact hcx hx.symm
          | inr hx => exact ih h0 (by rw [hsp]; exact List.mem_cons_self _ _) hx
        | inr he => exact ih t (by rw [hsp]; exact List.mem_cons_of_mem _ he)

/-- Unfolding equation of stripRight on a cons cell. -/
theorem stripRight_cons (p : Char → Bool) (c : Char) (t : Str) :
    stripRight p (c :: t) =
      if stripRight p t = [] then (if p c then [] else [c]) else c :: stripRight p t := rfl

theorem stripRight_idem (p : Char → Bool) (l : Str) :
    stripRight p (stripRight p l) = stripRight p l := by
  induction l with
  | nil => rfl
  | cons c t ih =>
    rw [stripRight_cons]
    by_cases hr : stripRight p t = []
    · rw [if_pos hr]
      by_cases hc : p c = true
      · rw [if_pos hc]; rfl
      · rw [if_neg hc]
        simp [stripRight, hc]
    · rw [if_neg hr, stripRight_cons, ih, if_neg hr]

theorem stripRight_ne_nil {p : Char → Bool} {l : Str}
    (h : ∃ c ∈ l, p c = false) : stripRight p l ≠ [] := by
  induction l with
  | nil => obtain ⟨c, hc, _⟩ := h; exact absurd hc (List.not_mem_nil c)
  | cons x t ih =>
    rw [stripRight_cons]
    by_cases hr : stripRight p t = []
    · rw [if_pos hr]
      obtain ⟨c, hc, hpc⟩ := h
      cases List.mem_cons.mp hc with
      | inl he =>
        subst he
        rw [if_neg (by rw [hpc]; exact Bool.false_ne_true)]
        exact List.cons_ne_nil _ _
      | inr he => exact absurd hr (ih ⟨c, he, hpc⟩)
    · rw [if_neg hr]
      exact List.cons_ne_nil _ _

theorem mem_stripRight {p : Char → Bool} {l : Str} {c : Char}
    (h : c ∈ stripRight p l) : c ∈ l := by
  induction l with
  | nil => exact absurd h (List.not_mem_nil c)
  | cons x t ih =>
    rw [stripRight_cons] at h
    by_cases hr : stripRight p t = []
    · rw [if_pos hr] at h
      by_cases hx : p x = true
      · rw [if_pos hx] at h
        exact absurd h (List.not_mem_nil c)
      · rw [if_neg hx] at h
        rw [List.mem_singleton] at h
        subst h
        exact List.mem_cons_self _ _
    · rw [if_neg hr] at h
      cases List.mem_cons.mp h with
      | inl he => subst he; exact List.mem_cons_self _ _
      | inr he => exact List.mem_cons_of_mem _ (ih he)

/-- The head of a cons output of stripRight is the original head. -/
theorem stripRight_head (p : Char → Bool) (c : Char) (t : Str) :
    stripRight p (c :: t) = [] ∨ ∃ t', stripRight p (c :: t) = c :: t' := by
  rw [stripRight_cons]
  by_cases hr : stripRight p t = []
  · rw [if_pos hr]
    by_cases hc : p c = true
    · rw [if_pos hc]; exact Or.inl rfl
    · rw [if_neg hc]; exact Or.inr ⟨[], rfl⟩
  · rw [if_neg hr]; exact Or.inr ⟨_, rfl⟩

/-- A non-satisfying element survives dropWhile. -/
theorem exists_mem_dropWhile {p : Char → Bool} {l : Str}
    (h : ∃ c ∈ l, p c = false) : ∃ c ∈ l.dropWhile p, p c = false := by
  induction l with
  | nil => obtain ⟨c, hc, _⟩ := h; exact absurd hc (List.not_mem_nil c)
  | cons x t ih =>
    by_cases hx : p x = true
    · rw [List.dropWhile_cons, if_pos hx]
      obtain ⟨c, hc, hpc⟩ := h
      cases List.mem_cons.mp hc with
      | inl he => subst he; exact absurd hx (by rw [hpc]; exact Bool.false_ne_true)
      | inr he => exact ih ⟨c, he, hpc⟩
    · rw [List.dropWhile_cons, if_neg hx]
      exact h

theorem pyStrip_idem (l : Str) : pyStrip (pyStrip l) = pyStrip l := by
  unfold pyStrip
  cases hd : l.dropWhile isPySpace with
  | nil => rfl
  | cons c t =>
    have hc : isPySpace c = false := by
      have := List.head?_dropWhile_not isPySpace l
      rw [hd] at this
      simpa using this
    cases stripRight_head isPySpace c t with
    | inl h0 => rw [h0]; rfl
    | inr h1 =>
      obtain ⟨t', ht'⟩ := h1
      rw [ht', List.dropWhile_cons, if_neg (by rw [hc]; exact Bool.false_ne_true), ← ht']
      exact stripRight_idem _ _

theorem pyStrip_ne_nil {l : Str} (h : ∃ c ∈ l, isPySpace c = false) : pyStrip l ≠ [] :=
  stripRight_ne_nil (exists_mem_dropWhile h)

theorem mem_pyStrip {l : Str} {c : Char} (h : c ∈ pyStrip l) : c ∈ l :=
  (List.dropWhile_sublist _).subset (mem_stripRight h)

/-- A list of nonempty, comma-free, strip-fixed tokens is a fixed point
of the comma-join/re-split/trim normalization. -/
theorem normTokens_fixed {L : List Str} (h1 : ∀ x ∈ L, x ≠ [])
    (h2 : ∀ x ∈ L, ',' ∉ x) (h3 : ∀ x ∈ L, pyStrip x = x) :
    normTokens (List.intercalate [','] L) = L := by
  cases hL : L with
  | nil => rfl
  | cons x xs =>
    rw [← hL]
    have hne : L ≠ [] := by rw [hL]; exact List.cons_ne_nil _ _
    unfold normTokens pySplitAll
    rw [List.splitOn_intercalate _ ',' h2 hne]
    rw [List.filter_eq_self.mpr (fun y hy => by simpa using h1 y hy)]
    conv_rhs => rw [(List.map_id L).symm]
    exact List.map_congr_left h3

/-- C6 amended: for category metadata whose comma-separated raw tokens
are each empty or contain a non-whitespace character, the normalized
list computed at Post construction has no empty strings and is a fixed
point of re-normalization (comma-join, re-split, trim).  Without that
proviso a whitespace-only token yields an empty string and the list is
not a fixed point (see the counterexample). -/
theorem categories_normalization (a b : Str)
    (h : ∀ t ∈ pySplitAll ',' (a ++ ',' :: b), t = [] ∨ ∃ c ∈ t, isPySpace c = false) :
    ([] ∉ normTokens (a ++ ',' :: b)) ∧
    normTokens (List.intercalate [','] (normTokens (a ++ ',' :: b))) =
      normTokens (a ++ ',' :: b) := by
  have hmem : ∀ x ∈ normTokens (a ++ ',' :: b), x ≠ [] ∧ (',') ∉ x ∧ pyStrip x = x := by
    intro x hx
    unfold normTokens at hx
    rw [List.mem_map] at hx
    obtain ⟨t, ht, hxt⟩ := hx
    rw [List.mem_filter] at ht
    obtain ⟨htok, htne⟩ := ht
    have htne' : t ≠ [] := by simpa using htne
    have hw : ∃ c ∈ t, isPySpace c = false := by
      cases h t htok with
      | inl he => exact absurd he htne'
      | inr hw => exact hw
    subst hxt
    refine ⟨pyStrip_ne_nil hw, ?_, pyStrip_idem t⟩
    intro hcm
    exact splitOn_no_sep t htok (mem_pyStrip hcm)
  constructor
  · intro hnil
    exact (hmem [] hnil).1 rfl
  · exact normTokens_fixed (fun x hx => (hmem x hx).1) (fun x hx => (hmem x hx).2.1)
      (fun x hx => (hmem x hx).2.2)

/-- C6 counterexample: a whitespace-only category value produces the
token list containing the empty string, and a second normalization
drops it, so the claim's no-empty-strings and idempotence parts both
fail as stated. -/
theorem categories_normalization_counterexample :
    ([] ∈ normTokens (" ".data ++ ',' :: [])) ∧
    normTokens (List.intercalate [','] (normTokens (" ".data ++ ',' :: []))) ≠
      normTokens (" ".data ++ ',' :: []) :=
  ⟨by decide, by decide⟩

theorem categories_normalization_witness :
    ([] ∉ normTokens ("a".data ++ ',' :: "a, b".data)) ∧
    normTokens (List.intercalate [','] (normTokens ("a".data ++ ',' :: "a, b".data))) =
      normTokens ("a".data ++ ',' :: "a, b".data) :=
  categories_normalization "a".data "a, b".data (by decide)

/-!
Claim C8 — category aggregation.
-/

theorem Dict.find_append {β : Type} (l₁ l₂ : List (Str × β)) (k : Str) :
    Dict.find (l₁ ++ l₂) k =
      (match Dict.find l₁ k with
       | some b => some b
       | none => Dict.find l₂ k) := by
  induction l₁ with
  | nil => simp [Dict.find]
  | cons p t ih =>
    by_cases hp : p.1 = k
    · simp [Dict.find, hp]
    · simp [Dict.find, hp, ih]

theorem find_addCat_self {α : Type} (acc : List (Str × List α)) (c : Str) (p : α) :
    Dict.find (addCat acc c p) c = some ((Dict.find acc c).getD [] ++ [p]) := by
  unfold addCat
  cases hf : Dict.find acc c with
  | none =>
    simp only
    rw [Dict.find_append, hf]
    simp [Dict.find]
  | some xs =>
    simp only
    rw [Dict.find_set_self]
    simp

theorem find_addCat_ne {α : Type} (acc : List (Str × List α)) (c c' : Str) (p : α)
    (h : c' ≠ c) : Dict.find (addCat acc c p) c' = Dict.find acc c' := by
  unfold addCat
  cases hf : Dict.find acc c with
  | none =>
    simp only
    rw [Dict.find_append]
    cases hf' : Dict.find acc c' with
    | none =>
      have h' : ¬ (c = c') := fun e => h e.symm
      simp [Dict.find, h']
    | some xs => simp
  | some xs =>
    simp only
    exact Dict.find_set_ne _ _ _ _ h

/-- Effect of one post's inner category fold on the lookup of any
category name. -/
theorem find_addCats {α : Type} (cs : List Str) (acc : List (Str × List α)) (p : α)
    (c : Str) (hnd : cs.Nodup) :
    Dict.find (cs.foldl (fun a k => addCat a k p) acc) c =
      if c ∈ cs then some ((Dict.find acc c).getD [] ++ [p]) else Dict.find acc c := by
  induction cs generalizing acc with
  | nil => simp
  | cons k ks ih =>
    have hk : k ∉ ks := (List.nodup_cons.mp hnd).1
    have hnd' : ks.Nodup := (List.nodup_cons.mp hnd).2
    rw [List.foldl_cons, ih _ hnd']
    by_cases hc : c ∈ ks
    · have hck : c ≠ k := fun e => hk (e ▸ hc)
      rw [if_pos hc, if_pos (List.mem_cons_of_mem _ hc), find_addCat_ne _ _ _ _ hck]
    · rw [if_neg hc]
      by_cases hck : c = k
      · subst hck
        rw [if_pos (List.mem_cons_self _ _), find_addCat_self]
      · rw [if_neg (fun hmem => by
          cases List.mem_cons.mp hmem with
          | inl h' => exact hck h'
          | inr h' => exact hc h'), find_addCat_ne _ _ _ _ hck]

/-- Accumulator-generalized description of calc_categories. -/
theorem find_calcCategories_aux {α : Type} (posts : List α) (cats : α → List Str)
    (acc : List (Str × List α)) (c : Str)
    (h : ∀ p ∈ posts, (cats p).Nodup) :
    Dict.find (posts.foldl (fun a p => (cats p).foldl (fun a2 k => addCat a2 k p) a) acc) c =
      (if ((Dict.find acc c).isNone &&
            (posts.filter (fun p => decide (c ∈ cats p))).isEmpty) then none
       else some ((Dict.find acc c).getD [] ++
            posts.filter (fun p => decide (c ∈ cats p)))) := by
  induction posts generalizing acc with
  | nil =>
    cases hf : Dict.find acc c with
    | none => simp [hf]
    | some xs => simp [hf]
  | cons p ps ih =>
    rw [List.foldl_cons]
    rw [ih _ (fun q hq => h q (List.mem_cons_of_mem _ hq))]
    rw [find_addCats _ _ _ _ (h p (List.mem_cons_self _ _))]
    by_cases hc : c ∈ cats p
    · rw [if_pos hc]
      rw [List.filter_cons_of_pos (by simpa using hc)]
      cases hf : Dict.find acc c with
      | none => simp
      | some xs => simp
    · rw [if_neg hc]
      rw [List.filter_cons_of_neg (by simpa using hc)]

/-- C8 amended: when no post repeats a category name in its own list,
every category name looks up to exactly the posts carrying it, in load
order, and a name carried by no post is absent.  When a post does
repeat a name it is appended once per occurrence, so the bucket is not
the plain filter of the posts (see the counterexample). -/
theorem calc_categories_spec {α : Type} (cats : α → List Str) (posts : List α)
    (h : ∀ p ∈ posts, (cats p).Nodup) (c : Str) :
    Dict.find (calcCategories cats posts) c =
      (if (posts.filter (fun p => decide (c ∈ cats p))).isEmpty then none
       else some (posts.filter (fun p => decide (c ∈ cats p)))) := by
  unfold calcCategories
  rw [find_calcCategories_aux posts cats [] c h]
  simp [Dict.find]

/-- C8 counterexample: a single post listing the same category twice is
appended twice to that category's bucket, so the bucket is not the
sequence of posts carrying the category (which lists each post once). -/
theorem calc_categories_counterexample :
    Dict.find (calcCategories Prod.snd [(0, ["tech".data, "tech".data])]) "tech".data =
      some [(0, ["tech".data, "tech".data]), (0, ["tech".data, "tech".data])] ∧
    List.filter (fun p => decide ("tech".data ∈ p.2)) [(0, ["tech".data, "tech".data])] =
      [(0, ["tech".data, "tech".data])] ∧
    Dict.find (calcCategories Prod.snd [(0, ["tech".data, "tech".data])]) "tech".data ≠
      some (List.filter (fun p => decide ("tech".data ∈ p.2))
        [(0, ["tech".data, "tech".data])]) :=
  ⟨by decide, by decide, by decide⟩

theorem calc_categories_witness :
    Dict.find (calcCategories Prod.snd
      [(1, ["tech".data, "life".data]), (2, ["tech".data])]) "tech".data =
      some [(1, ["tech".data, "life".data]), (2, ["tech".data])] ∧
    Dict.find (calcCategories Prod.snd
      [(1, ["tech".data, "life".data]), (2, ["tech".data])]) "life".data =
      some [(1, ["tech".data, "life".data])] :=
  ⟨(calc_categories_spec Prod.snd _ (by decide) "tech".data).trans (by decide),
   (calc_categories_spec Prod.snd _ (by decide) "life".data).trans (by decide)⟩
